import Mathlib

/-!
Verification development for the SubLocalizer translation-orchestration layer.

Shallow embedding of:
- `src/utils/text.py`   (deduplicate_texts, _find_match, _sequence_ratio)
- `src/utils/batching.py` (chunk_by_char_limit)
- `src/utils/cache.py`  (make_cache_key, TranslationMemory._load)
- `src/translator/orchestrator.py` (TranslationOrchestrator.translate,
  _build_batches, _retry)
- `src/translator/google.py` (GoogleTranslator._get_next_endpoint,
  _try_batch_separator)

Python strings are modelled as Lean `String`, dicts as total functions with
`Option` results, machine floats of `difflib` ratios as exact rationals, and
fallible code as `Except`/`Option` values.
-/

namespace SubLocalizer

/-! ## Python-semantics helpers -/

/-- Python's whitespace predicate (`str.isspace` per character), the set
`str.strip()` strips: `\t\n\v\f\r` (U+0009–U+000D), U+001C–U+001F, space,
NEL (U+0085), and the Unicode spaces U+00A0, U+1680, U+2000–U+200A, U+2028,
U+2029, U+202F, U+205F and U+3000. -/
def isPyWs (c : Char) : Bool :=
  decide ((9 ≤ c.toNat ∧ c.toNat ≤ 13) ∨ (28 ≤ c.toNat ∧ c.toNat ≤ 32)
    ∨ c.toNat = 0x85 ∨ c.toNat = 0xa0 ∨ c.toNat = 0x1680
    ∨ (0x2000 ≤ c.toNat ∧ c.toNat ≤ 0x200a) ∨ c.toNat = 0x2028
    ∨ c.toNat = 0x2029 ∨ c.toNat = 0x202f ∨ c.toNat = 0x205f
    ∨ c.toNat = 0x3000)

/-- Python `text.strip()`: drop leading and trailing whitespace. -/
def pyStrip (s : String) : String :=
  ⟨((s.data.dropWhile isPyWs).reverse.dropWhile isPyWs).reverse⟩

/-- Python truthiness of an optional string: `None` and `""` are falsy. -/
def optTruthy (o : Option String) : Bool :=
  match o with
  | some s => decide (s ≠ "")
  | none => false

/-- Python `a or b` on optional strings (`a` if truthy, else `b`). -/
def pyOrStr (a b : Option String) : Option String :=
  match a with
  | some s => if s = "" then b else some s
  | none => b

/-! ## `src/utils/text.py`: similarity ratio (difflib.SequenceMatcher)

`_sequence_ratio` calls `SequenceMatcher(None, a, b).ratio()`.
The embedding below follows difflib's Ratcliff-Obershelp computation with no
junk function; `autojunk` only affects second sequences of length ≥ 200 and is
not modelled (all ratio evaluations in this file are on short strings).
Floats are modelled as exact rationals. -/

/-- difflib's `b2j`: the ascending list of positions of `c` in `b`. -/
def b2jList (b : List Char) (c : Char) : List Nat :=
  (List.range b.length).filter (fun j => b.getD j ' ' = c)

/-- One row of difflib `find_longest_match`'s dynamic program: scan the
positions `js` of character `a[i]` in `b`, extending runs from `j2len`. -/
def flmRow (blo bhi : Nat) (j2len : Nat → Nat) (i : Nat) (js : List Nat)
    (best : Nat × Nat × Nat) : (Nat → Nat) × (Nat × Nat × Nat) :=
  js.foldl
    (fun (st : (Nat → Nat) × (Nat × Nat × Nat)) j =>
      if j < blo ∨ bhi ≤ j then st
      else
        let k := if j = 0 then 1 else j2len (j - 1) + 1
        let newj2len := fun x => if x = j then k else st.1 x
        let best' := if st.2.2.2 < k then (i + 1 - k, j + 1 - k, k) else st.2
        (newj2len, best'))
    ((fun _ => 0), best)

/-- difflib `SequenceMatcher.find_longest_match` on `a[alo:ahi]`, `b[blo:bhi]`
(no junk: the junk/popular extension loops are no-ops and omitted).
Returns `(besti, bestj, bestsize)`. -/
def findLongestMatch (a b : List Char) (alo ahi blo bhi : Nat) :
    Nat × Nat × Nat :=
  let step := fun (st : (Nat → Nat) × (Nat × Nat × Nat)) i =>
    flmRow blo bhi st.1 i (b2jList b (a.getD i ' ')) st.2
  ((List.range' alo (ahi - alo)).foldl step ((fun _ => 0), (alo, blo, 0))).2

/-- Total size of difflib's matching blocks on `a[alo:ahi]` vs `b[blo:bhi]`:
recursively split around the longest match.  `fuel` bounds the recursion
depth; `(ahi-alo)+(bhi-blo)` always suffices. -/
def matchesAux (a b : List Char) : Nat → Nat → Nat → Nat → Nat → Nat
  | 0, _, _, _, _ => 0
  | fuel + 1, alo, ahi, blo, bhi =>
    let r := findLongestMatch a b alo ahi blo bhi
    let i := r.1
    let j := r.2.1
    let k := r.2.2
    if k = 0 then 0
    else k + matchesAux a b fuel alo i blo j + matchesAux a b fuel (i + k) ahi (j + k) bhi

/-- The value `M` in difflib's ratio: total length of all matching blocks. -/
def totalMatches (a b : List Char) : Nat :=
  matchesAux a b (a.length + b.length) 0 a.length 0 b.length

/-- difflib `_calculate_ratio(matches, length) = 2.0*matches/length`
(`1.0` when `length == 0`). -/
def scoreOfMatches (m length : Nat) : ℚ :=
  if length = 0 then 1 else 2 * (m : ℚ) / (length : ℚ)

/-- Embeds `_sequence_ratio` from `src/utils/text.py`:
`1.0` if both strings are empty, else `SequenceMatcher(None, a, b).ratio()`. -/
def sequenceSimilarity (a b : String) : ℚ :=
  if a = "" ∧ b = "" then 1
  else scoreOfMatches (totalMatches a.data b.data) (a.data.length + b.data.length)

/-! ## `src/utils/text.py`: deduplication -/

/-- Default `similarity_threshold` of `deduplicate_texts`. -/
def similarityThreshold : ℚ := 985 / 1000

/-- Index-carrying loop of `_find_match`: first pool entry equal to the
candidate or with similarity ≥ threshold. -/
def findMatchAux (candidate : String) (threshold : ℚ) :
    List String → Nat → Option Nat
  | [], _ => none
  | other :: rest, i =>
    if candidate = other then some i
    else if threshold ≤ sequenceSimilarity candidate other then some i
    else findMatchAux candidate threshold rest (i + 1)

/-- Embeds `_find_match(candidate, pool, threshold)` from `src/utils/text.py`. -/
def find_match (candidate : String) (pool : List String) (threshold : ℚ) :
    Option Nat :=
  findMatchAux candidate threshold pool 0

/-- Embeds `DeduplicationResult` from `src/utils/text.py`. -/
structure DeduplicationResult where
  unique_texts : List String
  groups : List (List Nat)
  deriving Repr, DecidableEq

/-- The loop of `deduplicate_texts`: fold over the texts carrying the next
original index and the accumulated `unique`/`groups`. -/
def dedupAux (threshold : ℚ) :
    List String → Nat → List String → List (List Nat) →
    List String × List (List Nat)
  | [], _, unique, groups => (unique, groups)
  | t :: rest, idx, unique, groups =>
    match find_match (pyStrip t) unique threshold with
    | none => dedupAux threshold rest (idx + 1) (unique ++ [t]) (groups ++ [[idx]])
    | some m =>
      dedupAux threshold rest (idx + 1) unique
        (groups.set m (groups.getD m [] ++ [idx]))

/-- Embeds `deduplicate_texts` from `src/utils/text.py` (default threshold). -/
def deduplicate_texts (texts : List String) : DeduplicationResult :=
  let r := dedupAux similarityThreshold texts 0 [] []
  ⟨r.1, r.2⟩

/-! ## `src/utils/batching.py` and `TranslationOrchestrator._build_batches`

Both implement the same greedy packing; `chunkAux` is the common loop,
parameterized by the per-item length function. -/

/-- Sum of item lengths under `len`. -/
def charSumGen {α : Type} (len : α → Nat) (l : List α) : Nat :=
  (l.map len).sum

/-- The greedy packing loop shared by `chunk_by_char_limit`
(`src/utils/batching.py`) and `_build_batches` (orchestrator): close the
current batch when adding the next item would exceed `maxChars` or the batch
already holds `maxItems` items. -/
def chunkAux {α : Type} (len : α → Nat) (maxChars maxItems : Nat) :
    List α → List (List α) → List α → Nat → List (List α)
  | [], batches, current, _ =>
    if current.isEmpty then batches else batches ++ [current]
  | item :: rest, batches, current, charCount =>
    let itemLen := len item
    if !current.isEmpty ∧ (maxChars < charCount + itemLen ∨ maxItems ≤ current.length) then
      chunkAux len maxChars maxItems rest (batches ++ [current]) [item] itemLen
    else
      chunkAux len maxChars maxItems rest batches (current ++ [item]) (charCount + itemLen)

/-- Generic entry point of the greedy packer. -/
def chunkGen {α : Type} (len : α → Nat) (maxChars maxItems : Nat)
    (items : List α) : List (List α) :=
  chunkAux len maxChars maxItems items [] [] 0

/-- Embeds `chunk_by_char_limit` from `src/utils/batching.py`. -/
def chunk_by_char_limit (items : List String) (maxChars maxItems : Nat) :
    List (List String) :=
  chunkGen String.length maxChars maxItems items

/-- Character sum of a batch of strings. -/
def charSum (b : List String) : Nat := charSumGen String.length b

/-- Decidable per-batch property used to state the (amended) batch-planner
claim: a batch is nonempty, within the item budget, and within the character
budget unless it is a single oversized entry. -/
def goodBatch (maxChars maxItems : Nat) (b : List String) : Bool :=
  decide (b ≠ [] ∧ b.length ≤ maxItems ∧ (charSum b ≤ maxChars ∨ b.length = 1))

/-! ## `src/utils/cache.py` -/

/-- Embeds `make_cache_key(text, source, target)`:
`f"{source}::{target}::{text}"`. -/
def make_cache_key (text source target : String) : String :=
  source ++ "::" ++ target ++ "::" ++ text

/-! ## `src/utils/cache.py`: `TranslationMemory._load`

`_load` opens the store file as UTF-8 text (raising `UnicodeDecodeError` on
invalid bytes — not caught) and runs `json.load` on it, catching only
`json.JSONDecodeError` (which yields the empty store).  `json.load` accepts
any JSON document, and whatever value it returns is assigned to `self._data`.
The file content is modelled as `Option (List Nat)`: `none` = file absent,
`some bytes` = the file's raw bytes. -/

/-- A parsed JSON document, as `json.load` returns it.  Numeric values are
kept as their source token: their `int`/`float` interpretation plays no role
in any property of the store. -/
inductive Json where
  | null
  | jbool (b : Bool)
  | jnum (raw : String)
  | jstr (s : String)
  | jarr (elems : List Json)
  | jobj (kvs : List (String × Json))

/-- JSON insignificant whitespace (the scanner skips only these four). -/
def skipJsonWs (cs : List Char) : List Char :=
  cs.dropWhile (fun c => c = ' ' || c = '\t' || c = '\n' || c = '\r')

/-- Value of one hex digit, if any. -/
def parseHexDigit (c : Char) : Option Nat :=
  if '0' ≤ c ∧ c ≤ '9' then some (c.toNat - 48)
  else if 'a' ≤ c ∧ c ≤ 'f' then some (c.toNat - 87)
  else if 'A' ≤ c ∧ c ≤ 'F' then some (c.toNat - 55)
  else none

/-- JSON single-character escapes. -/
def escChar (c : Char) : Option Char :=
  if c = '"' then some '"'
  else if c = '\\' then some '\\'
  else if c = '/' then some '/'
  else if c = 'b' then some '\x08'
  else if c = 'f' then some '\x0c'
  else if c = 'n' then some '\n'
  else if c = 'r' then some '\r'
  else if c = 't' then some '\t'
  else none

/-- Body of a JSON string after the opening quote: returns the decoded string
and the remaining input.  Acceptance matches `json`: any 4-hex-digit `\uXXXX`
escape is accepted, surrogate escape pairs are combined into one character,
and a lone surrogate escape (which `json.load` accepts, producing a
lone-surrogate Python string with no Lean `Char` counterpart) is decoded as
U+FFFD — only the decoded character differs there, never acceptance.
`fuel` bounds recursion; the input length plus one always suffices. -/
def parseJStringAux : Nat → List Char → List Char → Option (String × List Char)
  | 0, _, _ => none
  | fuel + 1, acc, cs =>
    match cs with
    | [] => none
    | c :: rest =>
      if c = '"' then some (⟨acc.reverse⟩, rest)
      else if c = '\\' then
        match rest with
        | [] => none
        | e :: rest2 =>
          if e = 'u' then
            match rest2 with
            | h1 :: h2 :: h3 :: h4 :: rest3 =>
              match parseHexDigit h1, parseHexDigit h2, parseHexDigit h3, parseHexDigit h4 with
              | some a, some b, some c2, some d =>
                let n := ((a * 16 + b) * 16 + c2) * 16 + d
                if n < 0xd800 ∨ 0xdfff < n then
                  parseJStringAux fuel (Char.ofNat n :: acc) rest3
                else if n ≤ 0xdbff then
                  match rest3 with
                  | '\\' :: 'u' :: g1 :: g2 :: g3 :: g4 :: rest4 =>
                    match parseHexDigit g1, parseHexDigit g2, parseHexDigit g3, parseHexDigit g4 with
                    | some a2, some b2, some c3, some d2 =>
                      let m := ((a2 * 16 + b2) * 16 + c3) * 16 + d2
                      if 0xdc00 ≤ m ∧ m ≤ 0xdfff then
                        parseJStringAux fuel
                          (Char.ofNat (0x10000 + (n - 0xd800) * 0x400 + (m - 0xdc00)) :: acc)
                          rest4
                      else parseJStringAux fuel (Char.ofNat 0xfffd :: acc) rest3
                    | _, _, _, _ => parseJStringAux fuel (Char.ofNat 0xfffd :: acc) rest3
                  | _ => parseJStringAux fuel (Char.ofNat 0xfffd :: acc) rest3
                else parseJStringAux fuel (Char.ofNat 0xfffd :: acc) rest3
              | _, _, _, _ => none
            | _ => none
          else
            match escChar e with
            | some ch => parseJStringAux fuel (ch :: acc) rest2
            | none => none
      else if c.toNat < 0x20 then none
      else parseJStringAux fuel (c :: acc) rest

/-- ASCII decimal digit (the default C scanner of `json` accepts only ASCII
digits in numbers). -/
def isJDigit (c : Char) : Bool :=
  decide ('0' ≤ c ∧ c ≤ '9')

/-- The optional fraction and exponent of a JSON number, mirroring the
scanner's regular expression `(\.\d+)?([eE][-+]?\d+)?`: a group that does not
match is simply not consumed. -/
def finishNumber (sign intPart : List Char) (cs : List Char) :
    Json × List Char :=
  let fr : List Char × List Char :=
    match cs with
    | '.' :: r =>
      let ds := r.takeWhile isJDigit
      if ds = [] then ([], cs) else ('.' :: ds, r.dropWhile isJDigit)
    | _ => ([], cs)
  let ex : List Char × List Char :=
    match fr.2 with
    | e :: r =>
      if e = 'e' ∨ e = 'E' then
        let sg : List Char × List Char :=
          match r with
          | '+' :: rr => (['+'], rr)
          | '-' :: rr => (['-'], rr)
          | _ => ([], r)
        let ds := sg.2.takeWhile isJDigit
        if ds = [] then ([], fr.2) else (e :: (sg.1 ++ ds), sg.2.dropWhile isJDigit)
      else ([], fr.2)
    | [] => ([], fr.2)
  (Json.jnum ⟨sign ++ intPart ++ fr.1 ++ ex.1⟩, ex.2)

/-- A JSON number (or the `-Infinity` constant the scanner also accepts):
`-?(0|[1-9]\d*)` then optional fraction and exponent.  A leading zero is not
followed by further digits, exactly as in the scanner's regular expression. -/
def parseNumber (cs : List Char) : Option (Json × List Char) :=
  match cs with
  | '-' :: 'I' :: 'n' :: 'f' :: 'i' :: 'n' :: 'i' :: 't' :: 'y' :: rest =>
    some (Json.jnum "-Infinity", rest)
  | _ =>
    let sg : List Char × List Char :=
      match cs with
      | '-' :: r => (['-'], r)
      | _ => ([], cs)
    match sg.2 with
    | [] => none
    | c :: r1 =>
      if c = '0' then some (finishNumber sg.1 ['0'] r1)
      else if isJDigit c then
        some (finishNumber sg.1 (c :: r1.takeWhile isJDigit) (r1.dropWhile isJDigit))
      else none

mutual

/-- A JSON value, starting at a non-whitespace position: object, array,
string, `true`/`false`/`null`, the `NaN`/`Infinity`/`-Infinity` constants the
default scanner also accepts, or a number.  `fuel` bounds nesting; the input
length plus one always suffices, so acceptance is exact. -/
def parseValue : Nat → List Char → Option (Json × List Char)
  | 0, _ => none
  | fuel + 1, cs =>
    match cs with
    | [] => none
    | c :: rest =>
      if c = '\x7b' then
        match skipJsonWs rest with
        | '\x7d' :: rest2 => some (Json.jobj [], rest2)
        | _ =>
          match parseMembers fuel rest with
          | some (kvs, rest2) => some (Json.jobj kvs, rest2)
          | none => none
      else if c = '[' then
        match skipJsonWs rest with
        | ']' :: rest2 => some (Json.jarr [], rest2)
        | _ =>
          match parseElements fuel rest with
          | some (vs, rest2) => some (Json.jarr vs, rest2)
          | none => none
      else if c = '"' then
        match parseJStringAux (rest.length + 1) [] rest with
        | some (s, rest2) => some (Json.jstr s, rest2)
        | none => none
      else if c = 't' then
        match rest with
        | 'r' :: 'u' :: 'e' :: rest2 => some (Json.jbool true, rest2)
        | _ => none
      else if c = 'f' then
        match rest with
        | 'a' :: 'l' :: 's' :: 'e' :: rest2 => some (Json.jbool false, rest2)
        | _ => none
      else if c = 'n' then
        match rest with
        | 'u' :: 'l' :: 'l' :: rest2 => some (Json.null, rest2)
        | _ => none
      else if c = 'N' then
        match rest with
        | 'a' :: 'N' :: rest2 => some (Json.jnum "NaN", rest2)
        | _ => none
      else if c = 'I' then
        match rest with
        | 'n' :: 'f' :: 'i' :: 'n' :: 'i' :: 't' :: 'y' :: rest2 =>
          some (Json.jnum "Infinity", rest2)
        | _ => none
      else parseNumber cs

/-- The comma-separated elements of a nonempty array, up to and including the
closing bracket. -/
def parseElements : Nat → List Char → Option (List Json × List Char)
  | 0, _ => none
  | fuel + 1, cs =>
    match parseValue fuel (skipJsonWs cs) with
    | none => none
    | some (v, rest) =>
      match skipJsonWs rest with
      | ',' :: rest2 =>
        match parseElements fuel rest2 with
        | some (vs, rest3) => some (v :: vs, rest3)
        | none => none
      | ']' :: rest2 => some ([v], rest2)
      | _ => none

/-- The comma-separated `"key": value` members of a nonempty object, up to
and including the closing brace. -/
def parseMembers : Nat → List Char → Option (List (String × Json) × List Char)
  | 0, _ => none
  | fuel + 1, cs =>
    match skipJsonWs cs with
    | '"' :: rest =>
      match parseJStringAux (rest.length + 1) [] rest with
      | none => none
      | some (key, cs2) =>
        match skipJsonWs cs2 with
        | ':' :: cs3 =>
          match parseValue fuel (skipJsonWs cs3) with
          | none => none
          | some (v, cs4) =>
            match skipJsonWs cs4 with
            | ',' :: cs5 =>
              match parseMembers fuel cs5 with
              | some (kvs, cs6) => some ((key, v) :: kvs, cs6)
              | none => none
            | '\x7d' :: cs5 => some ([(key, v)], cs5)
            | _ => none
        | _ => none
    | _ => none

end

/-- Embeds `json.load` on text content: one JSON document surrounded only by
whitespace.  `none` models a `json.JSONDecodeError`.  (CPython additionally
raises an uncaught `RecursionError` on pathologically nested documents; that
resource limit is not modelled.) -/
def parseJson (s : String) : Option Json :=
  match parseValue (s.data.length + 1) (skipJsonWs s.data) with
  | some (v, rest) => if skipJsonWs rest = [] then some v else none
  | none => none

/-- Strict (RFC 3629) UTF-8 decoding of one byte sequence, as Python's
`encoding="utf-8"` text mode performs it: rejects invalid lead and
continuation bytes, overlong encodings, surrogates and values above
U+10FFFF.  `fuel` bounds recursion; the input length plus one suffices. -/
def utf8DecodeGo : Nat → List Nat → Option (List Char)
  | 0, bs => match bs with | [] => some [] | _ :: _ => none
  | fuel + 1, bs =>
    match bs with
    | [] => some []
    | b :: rest =>
      if b < 0x80 then
        (utf8DecodeGo fuel rest).map (fun cs => Char.ofNat b :: cs)
      else if b < 0xc2 then none
      else if b < 0xe0 then
        match rest with
        | b2 :: rest2 =>
          if 0x80 ≤ b2 ∧ b2 ≤ 0xbf then
            (utf8DecodeGo fuel rest2).map
              (fun cs => Char.ofNat ((b - 0xc0) * 0x40 + (b2 - 0x80)) :: cs)
          else none
        | [] => none
      else if b < 0xf0 then
        match rest with
        | b2 :: b3 :: rest2 =>
          if (0x80 ≤ b2 ∧ b2 ≤ 0xbf) ∧ (0x80 ≤ b3 ∧ b3 ≤ 0xbf) then
            let n := (b - 0xe0) * 0x1000 + (b2 - 0x80) * 0x40 + (b3 - 0x80)
            if 0x800 ≤ n ∧ (n < 0xd800 ∨ 0xdfff < n) then
              (utf8DecodeGo fuel rest2).map (fun cs => Char.ofNat n :: cs)
            else none
          else none
        | _ => none
      else if b < 0xf5 then
        match rest with
        | b2 :: b3 :: b4 :: rest2 =>
          if (0x80 ≤ b2 ∧ b2 ≤ 0xbf) ∧ (0x80 ≤ b3 ∧ b3 ≤ 0xbf)
              ∧ (0x80 ≤ b4 ∧ b4 ≤ 0xbf) then
            let n := (b - 0xf0) * 0x40000 + (b2 - 0x80) * 0x1000
              + (b3 - 0x80) * 0x40 + (b4 - 0x80)
            if 0x10000 ≤ n ∧ n ≤ 0x10ffff then
              (utf8DecodeGo fuel rest2).map (fun cs => Char.ofNat n :: cs)
            else none
          else none
        | _ => none
      else none

/-- Python `bytes.decode("utf-8")` (strict). -/
def utf8Decode (bs : List Nat) : Option (List Char) :=
  utf8DecodeGo (bs.length + 1) bs

/-- The `json.load` stage of `_load` on already-decoded text:
`except json.JSONDecodeError: self._data = {}`. -/
def loadText (s : String) : Json :=
  match parseJson s with
  | some v => v
  | none => Json.jobj []

/-- Embeds `TranslationMemory._load` over the store file's raw content:
an absent file is first created holding `"{}"` and then loaded; an existing
file is decoded as UTF-8 — a decode failure is the uncaught
`UnicodeDecodeError` escaping the constructor, modelled as `Except.error` —
and then parsed, with only `json.JSONDecodeError` caught (empty store). -/
def loadStore (content : Option (List Nat)) : Except String Json :=
  match content with
  | none => Except.ok (loadText "\x7b\x7d")
  | some bytes =>
    match utf8Decode bytes with
    | none => Except.error "UnicodeDecodeError"
    | some cs => Except.ok (loadText ⟨cs⟩)

/-! ## `src/translator/orchestrator.py` -/

/-- Embeds `PendingEntry` from the orchestrator. -/
structure PendingEntry where
  text : String
  indexes : List Nat
  cache_key : String
  deriving Repr, DecidableEq

/-- Loop body of `TranslationOrchestrator._retry`: `attempt` is the number of
calls already made; a call is made, and on failure the loop continues while
`attempt < max_attempts`.  The sleep with jitter and the log callback do not
affect the returned value and are not modelled.  Returns the result together
with the number of calls made.  `fuel` bounds recursion; `maxAttempts`
always suffices (the final pattern is unreachable then). -/
def retryGo {E A : Type} (action : Nat → Except E A) (maxAttempts : Nat)
    (attempt fuel : Nat) : Except E A × Nat :=
  match action (attempt + 1) with
  | .ok v => (.ok v, attempt + 1)
  | .error e =>
    if maxAttempts ≤ attempt + 1 then (.error e, attempt + 1)
    else
      match fuel with
      | 0 => (.error e, attempt + 1)
      | f + 1 => retryGo action maxAttempts (attempt + 1) f

/-- Embeds `TranslationOrchestrator._retry`, with the action indexed by the
attempt number (1-based).  Returns the result and the number of calls made. -/
def retryRun {E A : Type} (action : Nat → Except E A) (maxAttempts : Nat) :
    Except E A × Nat :=
  retryGo action maxAttempts 0 maxAttempts

/-- Python `for idx in indexes: resolved[idx] = value` (every index written by the
orchestrator is in range, so `List.set` is faithful). -/
def writeAll (resolved : List (Option String)) (idxs : List Nat) (v : String) :
    List (Option String) :=
  idxs.foldl (fun r i => r.set i (some v)) resolved

/-- Dict update: `cache[k] = v`. -/
def setKey (f : String → Option String) (k v : String) : String → Option String :=
  fun x => if x = k then some v else f x

/-- Embeds `TranslationOrchestrator._build_batches` (same greedy loop as
`chunk_by_char_limit`, measuring `len(entry.text)`). -/
def buildBatches (batchCharLimit batchSize : Nat) (entries : List PendingEntry) :
    List (List PendingEntry) :=
  chunkGen (fun e => e.text.length) batchCharLimit batchSize entries

/-- Mutable state threaded through `_translate_pending`: the output buffer,
both cache tiers, and the trace of texts lists passed to the backend's
`translate_texts` (one trace entry per backend invocation). -/
structure OrchState where
  resolved : List (Option String)
  session : String → Option String
  memory : String → Option String
  requests : List (List String)

/-- Python `for entry, translated in zip(batch, translations)`: write-through to both
caches and scatter onto every original index of the entry. -/
def scatterBatch (st : OrchState) (pairs : List (PendingEntry × String)) :
    OrchState :=
  pairs.foldl
    (fun st p =>
      { resolved := writeAll st.resolved p.1.indexes p.2
        session := setKey st.session p.1.cache_key p.2
        memory := setKey st.memory p.1.cache_key p.2
        requests := st.requests })
    st

/-- Embeds the batch loop of `_translate_pending`: per batch, call the backend
through `_retry` (the backend is modelled as a function of the request texts,
so every attempt returns the same value and the trace records the texts once
per call made); a size-mismatched reply raises; otherwise write through the
caches and scatter.  Batches are processed sequentially and a failure stops
the loop. -/
def processBatches (translator : List String → Except String (List String))
    (maxAttempts : Nat) :
    List (List PendingEntry) → OrchState → Except String Unit × OrchState
  | [], st => (.ok (), st)
  | batch :: rest, st =>
    let btexts := batch.map (fun e => e.text)
    let r := retryRun (fun _ => translator btexts) maxAttempts
    let st1 : OrchState :=
      { st with requests := st.requests ++ List.replicate r.2 btexts }
    match r.1 with
    | .error e => (.error e, st1)
    | .ok translations =>
      if translations.length ≠ batch.length then
        (.error "Translator returned mismatched batch size", st1)
      else
        processBatches translator maxAttempts rest
          (scatterBatch st1 (batch.zip translations))

/-- One iteration of the cache-resolution loop of `translate`: look up session
cache then durable memory for the unique text (Python `or`, so an
empty-string cached value falls through); on a truthy hit scatter the cached
value onto the text's indexes, otherwise append a `PendingEntry`. -/
def cacheStep (sourceLang targetLang : String)
    (session memory : String → Option String)
    (st : List PendingEntry × List (Option String)) (p : String × List Nat) :
    List PendingEntry × List (Option String) :=
  let key := make_cache_key p.1 sourceLang targetLang
  let cached := pyOrStr (session key) (memory key)
  if optTruthy cached then
    (st.1, writeAll st.2 p.2 (cached.getD ""))
  else
    (st.1 ++ [⟨p.1, p.2, key⟩], st.2)

/-- The cache-resolution loop of `translate` over the
`zip(dedup.unique_texts, dedup.groups)` pairs. -/
def cacheResolve (sourceLang targetLang : String)
    (session memory : String → Option String)
    (pairs : List (String × List Nat)) (resolved : List (Option String)) :
    List PendingEntry × List (Option String) :=
  pairs.foldl (cacheStep sourceLang targetLang session memory) ([], resolved)

/-- Observable outcome of one `translate` call: the returned list or the
raised error, the final output buffer, the backend-invocation trace, and both
cache tiers after the call. -/
structure TranslateOutcome where
  result : Except String (List String)
  resolved : List (Option String)
  requests : List (List String)
  sessionOut : String → Option String
  memoryOut : String → Option String

/-- Stages of `TranslationOrchestrator.translate` up to and including the
batch loop: build `resolved` (`[None] * total`), deduplicate, resolve against
the caches, build batches from the pending entries, and process them.
Progress and log callbacks do not affect any returned value and are not
modelled; the `if pending:` guard is redundant in the embedding because an
empty pending list yields no batches. -/
def translateCore (translator : List String → Except String (List String))
    (maxAttempts batchCharLimit batchSize : Nat) (texts : List String)
    (sourceLang targetLang : String)
    (session memory : String → Option String) : Except String Unit × OrchState :=
  let resolved0 : List (Option String) := List.replicate texts.length none
  let dedup := deduplicate_texts texts
  let pr := cacheResolve sourceLang targetLang session memory
    (dedup.unique_texts.zip dedup.groups) resolved0
  processBatches translator maxAttempts (buildBatches batchCharLimit batchSize pr.1)
    ⟨pr.2, session, memory, []⟩

/-- Embeds `TranslationOrchestrator.translate`: run the core stages, then the
post-condition check (`missing` raises) and the final
`[text or "" for text in resolved]`, which is `Option.getD ""` (every
remaining slot is `some`, and `"" or ""` is `""`). -/
def translate (translator : List String → Except String (List String))
    (maxAttempts batchCharLimit batchSize : Nat) (texts : List String)
    (sourceLang targetLang : String)
    (session memory : String → Option String) : TranslateOutcome :=
  let r := translateCore translator maxAttempts batchCharLimit batchSize texts
    sourceLang targetLang session memory
  let st1 := r.2
  match r.1 with
  | .error e => ⟨.error e, st1.resolved, st1.requests, st1.session, st1.memory⟩
  | .ok _ =>
    let missing := (List.range st1.resolved.length).filter
      (fun i => st1.resolved.getD i none = none)
    if missing.isEmpty then
      ⟨.ok (st1.resolved.map (fun o => o.getD "")), st1.resolved, st1.requests,
        st1.session, st1.memory⟩
    else
      ⟨.error "Missing translations for indexes", st1.resolved, st1.requests,
        st1.session, st1.memory⟩

/-! ## `src/translator/google.py` -/

/-- The fixed endpoint list `GoogleTranslator.google_endpoints`. -/
def googleEndpoints : List String :=
  ["https://translate.googleapis.com/translate_a/single",
   "https://translate.google.com/translate_a/single",
   "https://translate.google.com.tr/translate_a/single",
   "https://translate.google.co.uk/translate_a/single"]

/-- Python `min` over a nonempty sequence (the endpoint list is a fixed
nonempty class attribute, so the empty case never arises). -/
def pyMinNat : List Nat → Nat
  | [] => 0
  | x :: xs => xs.foldl Nat.min x

/-- Python `min(self._endpoint_failures.get(ep, 0) for ep in self.google_endpoints)`;
the failure dict is modelled as a total function (`.get(ep, 0)` defaulting). -/
def minFailures (failures : String → Nat) : Nat :=
  pyMinNat (googleEndpoints.map failures)

/-- The `available` filter of `_get_next_endpoint`. -/
def availableEndpoints (failures : String → Nat) : List String :=
  googleEndpoints.filter (fun ep => failures ep ≤ minFailures failures + 2)

/-- Result of `_get_next_endpoint`: chosen endpoint, updated round-robin
cursor, and (possibly cleared) failure counters. -/
structure EndpointChoice where
  endpoint : String
  endpointIndex : Nat
  failuresOut : String → Nat

/-- Embeds `GoogleTranslator._get_next_endpoint`. -/
def getNextEndpoint (failures : String → Nat) (endpointIndex : Nat) :
    EndpointChoice :=
  let avail := availableEndpoints failures
  let af : List String × (String → Nat) :=
    if avail.isEmpty then (googleEndpoints, fun _ => 0) else (avail, failures)
  let newIdx := (endpointIndex + 1) % af.1.length
  ⟨af.1.getD newIdx "", newIdx, af.2⟩

/-- Embeds `GoogleTranslator.BATCH_SEPARATOR`. -/
def BATCH_SEPARATOR : String := "\n|||RNLSEP999|||\n"

/-- Loop of Python `str.split(sep)` for a nonempty separator: scan left to
right, cutting at each (non-overlapping) occurrence of `sep`.  `fuel` bounds
the recursion; the input length plus one always suffices. -/
def pySplitGo (sep : List Char) : Nat → List Char → List Char → List (List Char)
  | 0, acc, _ => [acc.reverse]
  | fuel + 1, acc, cs =>
    match cs with
    | [] => [acc.reverse]
    | c :: rest =>
      if sep.isPrefixOf (c :: rest) then
        acc.reverse :: pySplitGo sep fuel [] ((c :: rest).drop sep.length)
      else
        pySplitGo sep fuel (c :: acc) rest

/-- Python `full_translation.split(self.BATCH_SEPARATOR)` (the separator is a
fixed nonempty string). -/
def pySplit (s sep : String) : List String :=
  (pySplitGo sep.data (s.data.length + 1) [] s.data).map (fun l => ⟨l⟩)

/-- Embeds the response handling of `try_endpoint` inside
`_try_batch_separator`.  The network layer is an oracle: `none` models a
non-200 status, a raised exception, or a non-list JSON body; `some segs`
models a 200 reply whose `data[0]` is the list `segs` of `seg[0]` strings
(`""` for a falsy segment).  The joined translation is split on the
separator and discarded unless the part count equals the input count. -/
def tryEndpointSep (texts : List String) (resp : Option (List String)) :
    Option (List String) :=
  match resp with
  | none => none
  | some segs =>
    if segs.isEmpty then none
    else
      let full := segs.foldl (fun acc s => if s = "" then acc else acc ++ s) ""
      let parts := pySplit full BATCH_SEPARATOR
      if parts.length ≠ texts.length then none
      else some (parts.map pyStrip)

/-- Both the `as_completed` race and the sequential fallback loop of
`_try_batch_separator` return the first truthy (non-`None`, nonempty)
per-endpoint result, in completion order. -/
def raceFirstTruthy : List (Option (List String)) → Option (List String)
  | [] => none
  | o :: rest =>
    match o with
    | some ys => if ys.isEmpty then raceFirstTruthy rest else some ys
    | none => raceFirstTruthy rest

/-- Embeds `GoogleTranslator._try_batch_separator`: per-endpoint responses
are given in completion order; the first truthy processed result wins. -/
def tryBatchSeparator (texts : List String)
    (resps : List (Option (List String))) : Option (List String) :=
  raceFirstTruthy (resps.map (tryEndpointSep texts))

/-! ## Lemmas: `_find_match` -/

lemma findMatchAux_lt (c : String) (th : ℚ) (pool : List String) :
    ∀ i m, findMatchAux c th pool i = some m → m < i + pool.length := by
  induction pool with
  | nil => intro i m h; simp [findMatchAux] at h
  | cons other rest ih =>
    intro i m h
    unfold findMatchAux at h
    split_ifs at h with h1 h2
    · injection h with h; subst h; simp
    · injection h with h; subst h; simp
    · have := ih (i + 1) m h
      simp only [List.length_cons]
      omega

lemma find_match_lt (c : String) (th : ℚ) (pool : List String) (m : Nat)
    (h : find_match c pool th = some m) : m < pool.length := by
  have := findMatchAux_lt c th pool 0 m h
  omega

lemma findMatchAux_append_some (c : String) (th : ℚ) (q : List String)
    (p : List String) :
    ∀ i m, findMatchAux c th p i = some m →
      findMatchAux c th (p ++ q) i = some m := by
  induction p with
  | nil => intro i m h; simp [findMatchAux] at h
  | cons other rest ih =>
    intro i m h
    simp only [List.cons_append, findMatchAux] at h ⊢
    split_ifs at h ⊢ <;> first
      | exact h
      | exact ih (i + 1) m h

lemma findMatchAux_append_none (c : String) (th : ℚ) (q : List String)
    (p : List String) :
    ∀ i, findMatchAux c th p i = none →
      findMatchAux c th (p ++ q) i = findMatchAux c th q (i + p.length) := by
  induction p with
  | nil => intro i h; simp [findMatchAux]
  | cons other rest ih =>
    intro i h
    simp only [List.cons_append, findMatchAux, List.append_eq] at h ⊢
    split_ifs at h ⊢
    all_goals first
      | exact Option.noConfusion h
      | (rw [ih (i + 1) h, List.length_cons]; congr 1; omega)

lemma find_match_append_some (c : String) (th : ℚ) (q : List String)
    (p : List String) (m : Nat) (h : find_match c p th = some m) :
    find_match c (p ++ q) th = some m :=
  findMatchAux_append_some c th q p 0 m h

lemma find_match_self_append (c : String) (th : ℚ) (p : List String)
    (h : find_match c p th = none) :
    find_match c (p ++ [c]) th = some p.length := by
  unfold find_match at h ⊢
  rw [findMatchAux_append_none c th [c] p 0 h]
  simp [findMatchAux]

/-! ## Lemmas: `deduplicate_texts` -/

lemma dedupAux_append (th : ℚ) (ys : List String) (xs : List String) :
    ∀ idx u g,
      dedupAux th (xs ++ ys) idx u g =
        dedupAux th ys (idx + xs.length) (dedupAux th xs idx u g).1
          (dedupAux th xs idx u g).2 := by
  induction xs with
  | nil => intro idx u g; simp [dedupAux]
  | cons t rest ih =>
    intro idx u g
    cases hm : find_match (pyStrip t) u th with
    | none =>
      simp only [List.cons_append, dedupAux, hm, List.append_eq]
      rw [ih (idx + 1), List.length_cons]
      congr 1
      omega
    | some m =>
      simp only [List.cons_append, dedupAux, hm, List.append_eq]
      rw [ih (idx + 1), List.length_cons]
      congr 1
      omega

lemma dedupAux_unique_extends (th : ℚ) (xs : List String) :
    ∀ idx u g, ∃ ext, (dedupAux th xs idx u g).1 = u ++ ext := by
  induction xs with
  | nil => intro idx u g; exact ⟨[], by simp [dedupAux]⟩
  | cons t rest ih =>
    intro idx u g
    cases hm : find_match (pyStrip t) u th with
    | none =>
      simp only [dedupAux, hm]
      obtain ⟨ext, hext⟩ := ih (idx + 1) (u ++ [t]) (g ++ [[idx]])
      exact ⟨[t] ++ ext, by rw [hext, List.append_assoc]⟩
    | some m =>
      simp only [dedupAux, hm]
      exact ih (idx + 1) u _

lemma dedupAux_len (th : ℚ) (xs : List String) :
    ∀ idx u g, g.length = u.length →
      (dedupAux th xs idx u g).2.length = (dedupAux th xs idx u g).1.length := by
  induction xs with
  | nil => intro idx u g h; simpa [dedupAux] using h
  | cons t rest ih =>
    intro idx u g h
    cases hm : find_match (pyStrip t) u th with
    | none =>
      simp only [dedupAux, hm]
      exact ih (idx + 1) (u ++ [t]) (g ++ [[idx]]) (by simp [h])
    | some m =>
      simp only [dedupAux, hm]
      exact ih (idx + 1) u _ (by rw [List.length_set]; exact h)

lemma dedupAux_mono (th : ℚ) (xs : List String) :
    ∀ idx u g p a, p < g.length → a ∈ g.getD p [] →
      p < (dedupAux th xs idx u g).2.length ∧
        a ∈ (dedupAux th xs idx u g).2.getD p [] := by
  induction xs with
  | nil => intro idx u g p a hp ha; exact ⟨by simpa [dedupAux] using hp, by simpa [dedupAux] using ha⟩
  | cons t rest ih =>
    intro idx u g p a hp ha
    cases hm : find_match (pyStrip t) u th with
    | none =>
      simp only [dedupAux, hm]
      refine ih (idx + 1) (u ++ [t]) (g ++ [[idx]]) p a ?_ ?_
      · simp only [List.length_append, List.length_cons, List.length_nil]
        omega
      · rw [List.getD_append _ _ _ p hp]
        exact ha
    | some m =>
      simp only [dedupAux, hm]
      refine ih (idx + 1) u (g.set m (g.getD m [] ++ [idx])) p a ?_ ?_
      · rw [List.length_set]; exact hp
      · by_cases hmp : m = p
        · subst hmp
          by_cases hmlt : m < g.length
          · rw [List.getD_eq_getElem?_getD, List.getElem?_set_self hmlt,
              Option.getD_some]
            exact List.mem_append_left _ ha
          · rw [List.set_eq_of_length_le (by omega)]
            exact ha
        · rw [List.getD_eq_getElem?_getD, List.getElem?_set_ne hmp,
            ← List.getD_eq_getElem?_getD]
          exact ha

lemma count_flatten_set (k a : Nat) (g : List (List Nat)) :
    ∀ m, m < g.length →
      ((g.set m (g.getD m [] ++ [a])).flatten.count k)
        = g.flatten.count k + (if a = k then 1 else 0) := by
  induction g with
  | nil => intro m hm; simp at hm
  | cons hd t ih =>
    intro m hm
    cases m with
    | zero =>
      simp only [List.set_cons_zero, List.getD_cons_zero, List.flatten_cons,
        List.count_append, List.count_singleton]
      simp [beq_iff_eq]
      split_ifs <;> omega
    | succ m =>
      simp only [List.set_cons_succ, List.getD_cons_succ, List.flatten_cons,
        List.count_append]
      rw [ih m (by simpa using hm)]
      omega

lemma dedupAux_count (th : ℚ) (k : Nat) (xs : List String) :
    ∀ idx u g, g.length = u.length →
      (dedupAux th xs idx u g).2.flatten.count k
        = g.flatten.count k
          + (if idx ≤ k ∧ k < idx + xs.length then 1 else 0) := by
  induction xs with
  | nil =>
    intro idx u g h
    simp only [dedupAux, List.length_nil, Nat.add_zero]
    split_ifs with hc <;> omega
  | cons t rest ih =>
    intro idx u g hlen
    cases hm : find_match (pyStrip t) u th with
    | none =>
      simp only [dedupAux, hm]
      rw [ih (idx + 1) (u ++ [t]) (g ++ [[idx]]) (by simp [hlen])]
      have hstep : (g ++ [[idx]]).flatten.count k
          = g.flatten.count k + (if idx = k then 1 else 0) := by
        simp [List.flatten_append, List.count_append, List.count_singleton,
          beq_iff_eq]
      rw [hstep]
      simp only [List.length_cons]
      split_ifs <;> omega
    | some m =>
      have hmg : m < g.length := by
        rw [hlen]; exact find_match_lt _ _ _ _ hm
      simp only [dedupAux, hm]
      rw [ih (idx + 1) u _ (by rw [List.length_set]; exact hlen)]
      rw [count_flatten_set k idx g m hmg]
      simp only [List.length_cons]
      split_ifs <;> omega

/-- C6: the groups of `deduplicate_texts` partition the index set `0..N-1`:
every original index below `N` occurs exactly once across all groups, no
other number occurs at all, and the number of groups equals the number of
unique texts. -/
theorem dedup_groups_partition (texts : List String) (k : Nat) :
    (deduplicate_texts texts).groups.flatten.count k
        = (if k < texts.length then 1 else 0)
      ∧ (deduplicate_texts texts).groups.length
        = (deduplicate_texts texts).unique_texts.length := by
  constructor
  · show (dedupAux similarityThreshold texts 0 [] []).2.flatten.count k = _
    rw [dedupAux_count similarityThreshold k texts 0 [] [] rfl]
    simp only [List.flatten_nil, List.count_nil, Nat.zero_add, Nat.zero_le,
      true_and]
  · exact dedupAux_len similarityThreshold texts 0 [] [] rfl

/-- C5 counterexample: `["a ", "a "]` holds the same string (with a trailing
space) at positions 0 and 1, yet `deduplicate_texts` puts the two positions
in different groups: the stripped candidate `"a"` is compared against the
stored unstripped text `"a "`, equality fails, and the similarity ratio 2/3
is below the 0.985 threshold. -/
theorem dedup_exact_duplicate_split :
    (deduplicate_texts ["a ", "a "]).groups = [[0], [1]]
      ∧ ¬ ∃ g ∈ (deduplicate_texts ["a ", "a "]).groups, 0 ∈ g ∧ 1 ∈ g := by
  have hsim : sequenceSimilarity "a" "a " = 2 / 3 := by
    have hm : totalMatches "a".data "a ".data = 1 := by decide
    rw [sequenceSimilarity, if_neg (by simp), hm]
    norm_num [scoreOfMatches]
  have hfm : find_match (pyStrip "a ") ["a "] similarityThreshold = none := by
    have hstrip : pyStrip "a " = "a" := by decide
    rw [hstrip, find_match, findMatchAux, if_neg (by decide), if_neg, findMatchAux]
    rw [hsim, similarityThreshold]
    norm_num
  have hded : deduplicate_texts ["a ", "a "] = ⟨["a ", "a "], [[0], [1]]⟩ := by
    rw [deduplicate_texts]
    have h0 : find_match (pyStrip "a ") [] similarityThreshold = none := rfl
    simp only [dedupAux, h0, List.nil_append, hfm]
    rfl
  rw [hded]
  exact ⟨rfl, by decide⟩

lemma dedup_tail (th : ℚ) (l2 l3 : List String) (s : String)
    (h : pyStrip s = s) (i : Nat) (u2 : List String) (g2 : List (List Nat))
    (p : Nat) (hp : p < g2.length) (hi : i ∈ g2.getD p [])
    (hfm : find_match s u2 th = some p) :
    ∃ q, q < (dedupAux th (l2 ++ s :: l3) (i + 1) u2 g2).2.length ∧
      i ∈ (dedupAux th (l2 ++ s :: l3) (i + 1) u2 g2).2.getD q [] ∧
      (i + 1 + l2.length) ∈ (dedupAux th (l2 ++ s :: l3) (i + 1) u2 g2).2.getD q [] := by
  rw [dedupAux_append th (s :: l3) l2 (i + 1) u2 g2]
  obtain ⟨ext, hext⟩ := dedupAux_unique_extends th l2 (i + 1) u2 g2
  obtain ⟨hp3, hi3⟩ := dedupAux_mono th l2 (i + 1) u2 g2 p i hp hi
  have hfm3 : find_match s (dedupAux th l2 (i + 1) u2 g2).1 th = some p := by
    rw [hext]
    exact find_match_append_some s th ext u2 p hfm
  simp only [dedupAux, h, hfm3]
  have hget : ((dedupAux th l2 (i + 1) u2 g2).2.set p
        ((dedupAux th l2 (i + 1) u2 g2).2.getD p [] ++ [i + 1 + l2.length])).getD p []
      = (dedupAux th l2 (i + 1) u2 g2).2.getD p [] ++ [i + 1 + l2.length] := by
    rw [List.getD_eq_getElem?_getD, List.getElem?_set_self hp3, Option.getD_some]
  have hp4 : p < ((dedupAux th l2 (i + 1) u2 g2).2.set p
      ((dedupAux th l2 (i + 1) u2 g2).2.getD p [] ++ [i + 1 + l2.length])).length := by
    rw [List.length_set]; exact hp3
  have hi4 : i ∈ ((dedupAux th l2 (i + 1) u2 g2).2.set p
      ((dedupAux th l2 (i + 1) u2 g2).2.getD p [] ++ [i + 1 + l2.length])).getD p [] := by
    rw [hget]; exact List.mem_append_left _ hi3
  have hj4 : (i + 1 + l2.length) ∈ ((dedupAux th l2 (i + 1) u2 g2).2.set p
      ((dedupAux th l2 (i + 1) u2 g2).2.getD p [] ++ [i + 1 + l2.length])).getD p [] := by
    rw [hget]; exact List.mem_append_right _ (List.mem_singleton.mpr rfl)
  obtain ⟨hp5, hi5⟩ := dedupAux_mono th l3 (i + 1 + l2.length + 1) _ _ p i hp4 hi4
  obtain ⟨-, hj5⟩ := dedupAux_mono th l3 (i + 1 + l2.length + 1) _ _ p
    (i + 1 + l2.length) hp4 hj4
  exact ⟨p, hp5, hi5, hj5⟩

lemma dedup_same_group_core (th : ℚ) (l1 l2 l3 : List String) (s : String)
    (h : pyStrip s = s) :
    ∃ p, p < (dedupAux th (l1 ++ s :: (l2 ++ s :: l3)) 0 [] []).2.length ∧
      l1.length ∈ (dedupAux th (l1 ++ s :: (l2 ++ s :: l3)) 0 [] []).2.getD p [] ∧
      (l1.length + 1 + l2.length) ∈
        (dedupAux th (l1 ++ s :: (l2 ++ s :: l3)) 0 [] []).2.getD p [] := by
  rw [dedupAux_append th (s :: (l2 ++ s :: l3)) l1 0 [] []]
  simp only [Nat.zero_add]
  have hlen1 : (dedupAux th l1 0 [] []).2.length = (dedupAux th l1 0 [] []).1.length :=
    dedupAux_len th l1 0 [] [] rfl
  simp only [dedupAux, h]
  cases hm : find_match s (dedupAux th l1 0 [] []).1 th with
  | some m =>
    have hmu : m < (dedupAux th l1 0 [] []).1.length := find_match_lt _ _ _ _ hm
    have hmg : m < (dedupAux th l1 0 [] []).2.length := by rw [hlen1]; exact hmu
    have hget : ((dedupAux th l1 0 [] []).2.set m
          ((dedupAux th l1 0 [] []).2.getD m [] ++ [l1.length])).getD m []
        = (dedupAux th l1 0 [] []).2.getD m [] ++ [l1.length] := by
      rw [List.getD_eq_getElem?_getD, List.getElem?_set_self hmg, Option.getD_some]
    refine dedup_tail th l2 l3 s h l1.length _ _ m ?_ ?_ hm
    · rw [List.length_set]; exact hmg
    · rw [hget]; exact List.mem_append_right _ (List.mem_singleton.mpr rfl)
  | none =>
    have hfm2 : find_match s ((dedupAux th l1 0 [] []).1 ++ [s]) th
        = some (dedupAux th l1 0 [] []).2.length := by
      rw [find_match_self_append s th _ hm, hlen1]
    refine dedup_tail th l2 l3 s h l1.length _ _ (dedupAux th l1 0 [] []).2.length
      ?_ ?_ hfm2
    · simp
    · rw [List.getD_eq_getElem?_getD, List.getElem?_concat_length, Option.getD_some]
      exact List.mem_singleton.mpr rfl

/-- C5 (amended): for every input list holding the same string at two
positions, when that string carries no leading or trailing whitespace,
`deduplicate_texts` places both positions in the same group, wherever the two
occurrences appear.  (With surrounding whitespace the stripped candidate is
compared against the stored unstripped text and the two positions can land in
different groups — see the counterexample.) -/
theorem dedup_strip_invariant_duplicates_same_group (l1 l2 l3 : List String)
    (s : String) (h : pyStrip s = s) :
    ((deduplicate_texts (l1 ++ s :: (l2 ++ s :: l3))).groups.any
      (fun g => decide (l1.length ∈ g ∧ l1.length + l2.length + 1 ∈ g))) = true := by
  obtain ⟨p, hp, hi, hj⟩ := dedup_same_group_core similarityThreshold l1 l2 l3 s h
  apply List.any_eq_true.mpr
  have hj' : l1.length + l2.length + 1 = l1.length + 1 + l2.length := by omega
  refine ⟨(dedupAux similarityThreshold (l1 ++ s :: (l2 ++ s :: l3)) 0 [] []).2.getD p [],
    ?_, ?_⟩
  · show _ ∈ (dedupAux similarityThreshold (l1 ++ s :: (l2 ++ s :: l3)) 0 [] []).2
    rw [List.getD_eq_getElem?_getD, List.getElem?_eq_getElem hp, Option.getD_some]
    exact List.getElem_mem hp
  · simp only [decide_eq_true_eq]
    exact ⟨hi, hj' ▸ hj⟩

/-- C5 witness: two occurrences of the whitespace-free string `"x"` land in
one group. -/
theorem dedup_strip_invariant_duplicates_same_group_witness :
    pyStrip "x" = "x"
      ∧ ((deduplicate_texts (["y"] ++ "x" :: (["z"] ++ "x" :: []))).groups.any
          (fun g => decide ((1 : Nat) ∈ g ∧ (3 : Nat) ∈ g))) = true :=
  ⟨by decide, dedup_strip_invariant_duplicates_same_group ["y"] ["z"] [] "x" (by decide)⟩

/-! ## Lemmas: greedy batch packing -/

lemma charSumGen_append_single {α : Type} (len : α → Nat) (l : List α) (x : α) :
    charSumGen len (l ++ [x]) = charSumGen len l + len x := by
  simp [charSumGen]

/-- The amended per-batch invariant, as a proposition. -/
def GoodB {α : Type} (len : α → Nat) (maxChars maxItems : Nat) (b : List α) : Prop :=
  b ≠ [] ∧ b.length ≤ maxItems ∧ (charSumGen len b ≤ maxChars ∨ b.length = 1)

lemma chunkAux_flatten {α : Type} (len : α → Nat) (mc mi : Nat)
    (items : List α) :
    ∀ (batches : List (List α)) (current : List α) (cc : Nat),
      (chunkAux len mc mi items batches current cc).flatten
        = batches.flatten ++ (current ++ items) := by
  induction items with
  | nil =>
    intro batches current cc
    simp only [chunkAux]
    split_ifs with h
    · rw [List.isEmpty_iff] at h
      simp [h]
    · simp [List.flatten_append]
  | cons item rest ih =>
    intro batches current cc
    simp only [chunkAux]
    split_ifs with h
    · rw [ih]
      simp [List.flatten_append]
    · rw [ih]
      simp

lemma chunkAux_good {α : Type} (len : α → Nat) (mc mi : Nat) (hmi : 1 ≤ mi)
    (items : List α) :
    ∀ (batches : List (List α)) (current : List α) (cc : Nat),
      (∀ b ∈ batches, GoodB len mc mi b) →
      current.length ≤ mi →
      (charSumGen len current ≤ mc ∨ current.length ≤ 1) →
      cc = charSumGen len current →
      ∀ b ∈ chunkAux len mc mi items batches current cc, GoodB len mc mi b := by
  induction items with
  | nil =>
    intro batches current cc hb hlen hsum hcc b hmem
    simp only [chunkAux] at hmem
    split_ifs at hmem with h
    · exact hb b hmem
    · rcases List.mem_append.mp hmem with hmem | hmem
      · exact hb b hmem
      · rw [List.mem_singleton] at hmem
        subst hmem
        have hne : b ≠ [] := fun he => by simp [he] at h
        refine ⟨hne, hlen, ?_⟩
        rcases hsum with hs | hs
        · exact Or.inl hs
        · right
          cases b with
          | nil => exact absurd rfl hne
          | cons x xs => simp only [List.length_cons] at hs ⊢; omega
  | cons item rest ih =>
    intro batches current cc hb hlen hsum hcc b hmem
    simp only [chunkAux] at hmem
    split_ifs at hmem with h
    · obtain ⟨hne, hover⟩ := h
      have hcur : GoodB len mc mi current := by
        have hne' : current ≠ [] := fun he => by simp [he] at hne
        refine ⟨hne', hlen, ?_⟩
        rcases hsum with hs | hs
        · exact Or.inl hs
        · right
          cases current with
          | nil => exact absurd rfl hne'
          | cons x xs => simp only [List.length_cons] at hs ⊢; omega
      refine ih (batches ++ [current]) [item] (len item) ?_ ?_ ?_ ?_ b hmem
      · intro b2 hb2
        rcases List.mem_append.mp hb2 with h2 | h2
        · exact hb b2 h2
        · rw [List.mem_singleton] at h2; subst h2; exact hcur
      · simpa using hmi
      · right; simp
      · simp [charSumGen]
    · by_cases hemp : current.isEmpty
      · rw [List.isEmpty_iff] at hemp
        subst hemp
        refine ih batches ([] ++ [item]) (cc + len item) hb ?_ ?_ ?_ b hmem
        · simpa using hmi
        · right; simp
        · simp [charSumGen, hcc]
      · have hfit : cc + len item ≤ mc ∧ current.length < mi := by
          rw [not_and_or] at h
          rcases h with h | h
          · simp [hemp] at h
          · rw [not_or] at h
            omega
        refine ih batches (current ++ [item]) (cc + len item) hb ?_ ?_ ?_ b hmem
        · rw [List.length_append]
          simp only [List.length_cons, List.length_nil]
          omega
        · left
          rw [charSumGen_append_single, ← hcc]
          exact hfit.1
        · rw [charSumGen_append_single, hcc]

/-- C3 counterexample: with `maxChars = 1 > 0` and `maxItems = 2 > 0`, the
single entry `"abc"` (3 characters) is emitted as a batch whose cumulative
character count exceeds `maxChars`, so the planner does not keep every batch
within the character budget. -/
theorem chunk_oversized_entry_exceeds_max_chars :
    (0 : Nat) < 1 ∧ (0 : Nat) < 2
      ∧ ["abc"] ∈ chunk_by_char_limit ["abc"] 1 2
      ∧ 1 < charSum ["abc"] := by
  decide

/-- C3 (amended): for every entry list and `maxItems ≥ 1`, the planner's
batches concatenate to the input (no entry dropped or reordered) and every
batch is nonempty, holds at most `maxItems` entries, and keeps its cumulative
character count within `maxChars` unless it is a single (oversized) entry. -/
theorem chunk_by_char_limit_spec (items : List String) (maxChars maxItems : Nat)
    (hmi : 1 ≤ maxItems) :
    (chunk_by_char_limit items maxChars maxItems).flatten = items
      ∧ (chunk_by_char_limit items maxChars maxItems).all
          (goodBatch maxChars maxItems) = true := by
  constructor
  · show (chunkAux String.length maxChars maxItems items [] [] 0).flatten = items
    rw [chunkAux_flatten]
    simp
  · rw [List.all_eq_true]
    intro b hb
    have hgood := chunkAux_good String.length maxChars maxItems hmi items [] [] 0
      (by intro b2 h2; simp at h2) (by simp) (by right; simp) (by simp [charSumGen])
      b hb
    simp only [goodBatch, decide_eq_true_eq]
    exact hgood

/-- C3 witness: `["ab", "c"]` with budgets `2`/`2` packs into `[["ab"], ["c"]]`,
concatenating back to the input with every batch within both budgets. -/
theorem chunk_by_char_limit_spec_witness :
    (1 : Nat) ≤ 2
      ∧ ((chunk_by_char_limit ["ab", "c"] 2 2).flatten = ["ab", "c"]
        ∧ (chunk_by_char_limit ["ab", "c"] 2 2).all (goodBatch 2 2) = true) :=
  ⟨by decide, chunk_by_char_limit_spec ["ab", "c"] 2 2 (by decide)⟩

/-! ## Lemmas: `_retry` -/

lemma retryGo_succeeds {E A : Type} (action : Nat → Except E A) (k j : Nat)
    (v : A) (hjk : j ≤ k) (hok : action j = Except.ok v)
    (hfail : ∀ t, 1 ≤ t → t < j → ∃ e, action t = Except.error e) :
    ∀ fuel attempt, attempt < j → j ≤ attempt + 1 + fuel →
      retryGo action k attempt fuel = (Except.ok v, j) := by
  intro fuel
  induction fuel with
  | zero =>
    intro attempt h1 h2
    have haj : attempt + 1 = j := by omega
    rw [retryGo]
    simp only [haj, hok]
  | succ f ihf =>
    intro attempt h1 h2
    by_cases haj : attempt + 1 = j
    · rw [retryGo]
      simp only [haj, hok]
    · obtain ⟨e, he⟩ := hfail (attempt + 1) (by omega) (by omega)
      rw [retryGo]
      simp only [he]
      rw [if_neg (by omega)]
      exact ihf (attempt + 1) (by omega) (by omega)

lemma retryGo_all_fail {E A : Type} (action : Nat → Except E A) (k : Nat)
    (err : Nat → E) :
    ∀ fuel attempt, attempt < k → k ≤ attempt + 1 + fuel →
      (∀ t, attempt + 1 ≤ t → t ≤ k → action t = Except.error (err t)) →
      retryGo action k attempt fuel = (Except.error (err k), k) := by
  intro fuel
  induction fuel with
  | zero =>
    intro attempt h1 h2 hfail
    have hak : attempt + 1 = k := by omega
    rw [retryGo]
    simp only [hfail (attempt + 1) (by omega) (by omega)]
    rw [if_pos (by omega)]
    simp only [hak]
  | succ f ihf =>
    intro attempt h1 h2 hfail
    by_cases hak : attempt + 1 = k
    · rw [retryGo]
      simp only [hfail (attempt + 1) (by omega) (by omega)]
      rw [if_pos (by omega)]
      simp only [hak]
    · rw [retryGo]
      simp only [hfail (attempt + 1) (by omega) (by omega)]
      rw [if_neg (by omega)]
      exact ihf (attempt + 1) (by omega) (by omega)
        (fun t ht1 ht2 => hfail t (by omega) ht2)

/-- C4: for a retry policy with `maxAttempts = k ≥ 1`: if the action fails on
every attempt before `j ≤ k` and succeeds on attempt `j`, the retry executor
returns that success value having called the action exactly `j` times; if the
action fails on all attempts `1..k`, the executor raises, propagating the
last (`k`-th) failure unchanged, having called the action exactly `k` times. -/
theorem retry_executor_spec {E A : Type} (action : Nat → Except E A) (k : Nat)
    (hk : 1 ≤ k) :
    (∀ j v, 1 ≤ j → j ≤ k → action j = Except.ok v →
        (∀ t, 1 ≤ t → t < j → ∃ e, action t = Except.error e) →
        retryRun action k = (Except.ok v, j))
      ∧ (∀ err : Nat → E,
        (∀ t, 1 ≤ t → t ≤ k → action t = Except.error (err t)) →
        retryRun action k = (Except.error (err k), k)) := by
  constructor
  · intro j v h1 hjk hok hfail
    exact retryGo_succeeds action k j v hjk hok hfail k 0 (by omega) (by omega)
  · intro err hfail
    exact retryGo_all_fail action k err k 0 (by omega) (by omega)
      (fun t h1 h2 => hfail t (by omega) h2)

/-- C4 witness: an action failing on attempts 1–3 and succeeding on attempt 4
yields the success value after exactly 4 calls under `maxAttempts = 4`; an
action failing on all 3 attempts under `maxAttempts = 3` propagates the last
error after exactly 3 calls. -/
theorem retry_executor_spec_witness :
    retryRun (fun t => if t ≤ 3 then (Except.error "boom" : Except String String)
        else Except.ok "done") 4 = (Except.ok "done", 4)
      ∧ retryRun (fun _ => (Except.error "bad" : Except String String)) 3
          = (Except.error "bad", 3) :=
  ⟨(retry_executor_spec _ 4 (by decide)).1 4 "done" (by decide) (by decide)
      (by rfl)
      (fun t h1 h2 => ⟨"boom", by rw [if_pos (by omega)]⟩),
    (retry_executor_spec (fun _ => (Except.error "bad" : Except String String)) 3
        (by decide)).2 (fun _ => "bad") (fun t h1 h2 => rfl)⟩

/-! ## Lemmas: the orchestrator -/

lemma writeAll_cons (r : List (Option String)) (i : Nat) (t : List Nat)
    (v : String) :
    writeAll r (i :: t) v = writeAll (r.set i (some v)) t v := rfl

lemma writeAll_length (idxs : List Nat) :
    ∀ (r : List (Option String)) (v : String),
      (writeAll r idxs v).length = r.length := by
  induction idxs with
  | nil => intro r v; rfl
  | cons i t ih =>
    intro r v
    rw [writeAll_cons, ih, List.length_set]

lemma cacheFold_resolved_length (src tgt : String)
    (session memory : String → Option String)
    (pairs : List (String × List Nat)) :
    ∀ acc : List PendingEntry × List (Option String),
      (pairs.foldl (cacheStep src tgt session memory) acc).2.length
        = acc.2.length := by
  induction pairs with
  | nil => intro acc; rfl
  | cons p rest ih =>
    intro acc
    rw [List.foldl_cons, ih]
    simp only [cacheStep]
    split_ifs
    · exact writeAll_length _ _ _
    · rfl

/-- Every pending entry produced by the cache-resolution loop carries the
cache key of its own text and corresponds to a cache lookup that was not
truthy. -/
lemma cacheFold_pending (src tgt : String)
    (session memory : String → Option String)
    (pairs : List (String × List Nat)) :
    ∀ acc : List PendingEntry × List (Option String),
      (∀ e ∈ acc.1, e.cache_key = make_cache_key e.text src tgt
        ∧ optTruthy (pyOrStr (session e.cache_key) (memory e.cache_key)) = false) →
      ∀ e ∈ (pairs.foldl (cacheStep src tgt session memory) acc).1,
        e.cache_key = make_cache_key e.text src tgt
          ∧ optTruthy (pyOrStr (session e.cache_key) (memory e.cache_key)) = false := by
  induction pairs with
  | nil => intro acc hacc; exact hacc
  | cons p rest ih =>
    intro acc hacc
    rw [List.foldl_cons]
    apply ih
    intro e he
    simp only [cacheStep] at he
    split_ifs at he with hc
    · exact hacc e he
    · rcases List.mem_append.mp he with h | h
      · exact hacc e h
      · rw [List.mem_singleton] at h
        subst h
        exact ⟨rfl, by simpa using hc⟩

lemma scatterBatch_requests (pairs : List (PendingEntry × String)) :
    ∀ st : OrchState, (scatterBatch st pairs).requests = st.requests := by
  induction pairs with
  | nil => intro st; rfl
  | cons p rest ih => intro st; exact ih _

lemma scatterBatch_resolved_length (pairs : List (PendingEntry × String)) :
    ∀ st : OrchState, (scatterBatch st pairs).resolved.length
      = st.resolved.length := by
  induction pairs with
  | nil => intro st; rfl
  | cons p rest ih =>
    intro st
    show (scatterBatch _ rest).resolved.length = _
    rw [ih]
    exact writeAll_length _ _ _

lemma processBatches_resolved_length
    (tr : List String → Except String (List String)) (ma : Nat)
    (batches : List (List PendingEntry)) :
    ∀ st : OrchState,
      (processBatches tr ma batches st).2.resolved.length
        = st.resolved.length := by
  induction batches with
  | nil => intro st; rfl
  | cons batch rest ih =>
    intro st
    cases hr : (retryRun (fun _ => tr (batch.map (fun e => e.text))) ma).1 with
    | error e => simp only [processBatches, hr]
    | ok ts =>
      simp only [processBatches, hr]
      split_ifs
      · rfl
      · rw [ih, scatterBatch_resolved_length]

lemma processBatches_requests
    (tr : List String → Except String (List String)) (ma : Nat)
    (batches : List (List PendingEntry)) :
    ∀ (st : OrchState) (req : List String),
      req ∈ (processBatches tr ma batches st).2.requests →
      req ∈ st.requests ∨ ∃ b ∈ batches, req = b.map (fun e => e.text) := by
  induction batches with
  | nil => intro st req h; exact Or.inl h
  | cons batch rest ih =>
    intro st req h
    have hsplit : ∀ hreq : req ∈ st.requests
          ++ List.replicate (retryRun (fun _ => tr (batch.map (fun e => e.text))) ma).2
            (batch.map (fun e => e.text)),
        req ∈ st.requests ∨ ∃ b ∈ batch :: rest, req = b.map (fun e => e.text) := by
      intro hreq
      rcases List.mem_append.mp hreq with h2 | h2
      · exact Or.inl h2
      · exact Or.inr ⟨batch, List.mem_cons_self _ _, (List.mem_replicate.mp h2).2⟩
    cases hr : (retryRun (fun _ => tr (batch.map (fun e => e.text))) ma).1 with
    | error e =>
      simp only [processBatches, hr] at h
      exact hsplit h
    | ok ts =>
      simp only [processBatches, hr] at h
      split_ifs at h
      · exact hsplit h
      · rcases ih _ req h with h2 | h2
        · rw [scatterBatch_requests] at h2
          exact hsplit h2
        · obtain ⟨b, hb, he⟩ := h2
          exact Or.inr ⟨b, List.mem_cons_of_mem _ hb, he⟩

lemma buildBatches_flatten (bcl bs : Nat) (entries : List PendingEntry) :
    (buildBatches bcl bs entries).flatten = entries := by
  show (chunkAux (fun e => e.text.length) bcl bs entries [] [] 0).flatten = entries
  rw [chunkAux_flatten]
  simp

lemma translate_requests_eq
    (translator : List String → Except String (List String))
    (maxAttempts batchCharLimit batchSize : Nat) (texts : List String)
    (src tgt : String) (session memory : String → Option String) :
    (translate translator maxAttempts batchCharLimit batchSize texts src tgt
        session memory).requests
      = (translateCore translator maxAttempts batchCharLimit batchSize texts
          src tgt session memory).2.requests := by
  cases hr : (translateCore translator maxAttempts batchCharLimit batchSize
      texts src tgt session memory).1 with
  | error e => simp only [translate, hr]
  | ok u =>
    simp only [translate, hr]
    split_ifs <;> rfl

lemma translateCore_resolved_length
    (translator : List String → Except String (List String))
    (maxAttempts batchCharLimit batchSize : Nat) (texts : List String)
    (src tgt : String) (session memory : String → Option String) :
    (translateCore translator maxAttempts batchCharLimit batchSize texts src
        tgt session memory).2.resolved.length = texts.length := by
  simp only [translateCore]
  rw [processBatches_resolved_length]
  show (cacheResolve src tgt session memory _ _).2.length = texts.length
  simp only [cacheResolve]
  rw [cacheFold_resolved_length]
  exact List.length_replicate _ _

/-- C1: whenever `translate` returns (rather than raises), the returned list
has exactly the input length and every output slot was written (no slot of
the resolved buffer is `None`); an unwritten slot would instead have raised
the `Missing translations` error. -/
theorem translate_ok_length
    (translator : List String → Except String (List String))
    (maxAttempts batchCharLimit batchSize : Nat) (texts : List String)
    (src tgt : String) (session memory : String → Option String)
    (out : List String)
    (h : (translate translator maxAttempts batchCharLimit batchSize texts src
        tgt session memory).result = Except.ok out) :
    out.length = texts.length
      ∧ (translate translator maxAttempts batchCharLimit batchSize texts src
          tgt session memory).resolved.all (fun o => o.isSome) = true := by
  have hlen := translateCore_resolved_length translator maxAttempts
    batchCharLimit batchSize texts src tgt session memory
  cases hr : (translateCore translator maxAttempts batchCharLimit batchSize
      texts src tgt session memory).1 with
  | error e =>
    simp only [translate, hr] at h
    exact absurd h (by simp)
  | ok u =>
    simp only [translate, hr] at h ⊢
    split_ifs at h ⊢ with hmiss
    · constructor
      · have hout : (translateCore translator maxAttempts batchCharLimit
            batchSize texts src tgt session memory).2.resolved.map
              (fun o => o.getD "") = out := by
          exact Except.ok.inj h
        rw [← hout, List.length_map, hlen]
      · rw [List.all_eq_true]
        intro o ho
        obtain ⟨i, hi, hoe⟩ := List.getElem_of_mem ho
        have hfe := List.isEmpty_iff.mp hmiss
        rw [List.filter_eq_nil_iff] at hfe
        have hnone := hfe i (List.mem_range.mpr hi)
        simp only [decide_eq_true_eq] at hnone
        rw [List.getD_eq_getElem?_getD, List.getElem?_eq_getElem hi,
          Option.getD_some, hoe] at hnone
        exact Option.isSome_iff_ne_none.mpr hnone

/-- C1 witness: a concrete successful run on two duplicate texts returns a
list of the input length with every slot written. -/
theorem translate_ok_length_witness :
    ((translate (fun ts => Except.ok ts) 1 100 10 ["hi", "hi"] "en" "tr"
        (fun _ => none) (fun _ => none)).result = Except.ok ["hi", "hi"])
      ∧ ((["hi", "hi"] : List String).length = (["hi", "hi"] : List String).length
        ∧ (translate (fun ts => Except.ok ts) 1 100 10 ["hi", "hi"] "en" "tr"
            (fun _ => none) (fun _ => none)).resolved.all
              (fun o => o.isSome) = true) :=
  ⟨rfl, translate_ok_length (fun ts => Except.ok ts) 1 100 10 ["hi", "hi"]
    "en" "tr" (fun _ => none) (fun _ => none) ["hi", "hi"] rfl⟩

/-- C2 counterexample: a key *present* in the session cache but with an
empty-string value is falsy under Python truthiness, so the orchestrator
re-translates its text: the backend is invoked for `"a"` even though
`make_cache_key "a" "s" "t"` is present in the session cache. -/
theorem cached_empty_string_reaches_backend :
    (fun k => if k = make_cache_key "a" "s" "t" then some "" else none)
        (make_cache_key "a" "s" "t") = some ""
      ∧ "a" ∈ (translate (fun ts => Except.ok ts) 1 100 10 ["a"] "s" "t"
          (fun k => if k = make_cache_key "a" "s" "t" then some "" else none)
          (fun _ => none)).requests.flatten := by
  constructor
  · simp
  · show "a" ∈ ([["a"]] : List (List String)).flatten
    simp

/-- C2 (amended): for every key whose cached value in the session cache or
the durable cache at the start of a `translate` call is truthy (present and
non-empty), the backend's `translate_texts` is never invoked for that key's
text during the call.  (A present but empty-string cached value is treated
as a miss — see the counterexample.) -/
theorem cache_hit_prevents_backend_call
    (translator : List String → Except String (List String))
    (maxAttempts batchCharLimit batchSize : Nat) (texts : List String)
    (src tgt : String) (session memory : String → Option String) (x : String)
    (h : optTruthy (pyOrStr (session (make_cache_key x src tgt))
        (memory (make_cache_key x src tgt))) = true) :
    x ∉ (translate translator maxAttempts batchCharLimit batchSize texts src
        tgt session memory).requests.flatten := by
  intro hx
  rw [translate_requests_eq] at hx
  simp only [translateCore] at hx
  obtain ⟨req, hreq, hxreq⟩ := List.mem_flatten.mp hx
  rcases processBatches_requests translator maxAttempts _ _ req hreq with h2 | h2
  · exact absurd h2 (List.not_mem_nil req)
  · obtain ⟨b, hb, he⟩ := h2
    subst he
    obtain ⟨e, heb, hex⟩ := List.mem_map.mp hxreq
    have hepending : e ∈ (cacheResolve src tgt session memory
        ((deduplicate_texts texts).unique_texts.zip (deduplicate_texts texts).groups)
        (List.replicate texts.length none)).1 := by
      have hfl : e ∈ (buildBatches batchCharLimit batchSize
          (cacheResolve src tgt session memory
            ((deduplicate_texts texts).unique_texts.zip (deduplicate_texts texts).groups)
            (List.replicate texts.length none)).1).flatten :=
        List.mem_flatten.mpr ⟨b, hb, heb⟩
      rwa [buildBatches_flatten] at hfl
    obtain ⟨hkey, hfalse⟩ := cacheFold_pending src tgt session memory _ ([], _)
      (by intro e2 h2; simp at h2) e hepending
    rw [hkey, hex] at hfalse
    rw [h] at hfalse
    exact absurd hfalse (by simp)

/-- C2 witness: with `"v"` cached for the key of `"a"`, a `translate` call on
`["a"]` never sends `"a"` to the backend. -/
theorem cache_hit_prevents_backend_call_witness :
    optTruthy (pyOrStr
        ((fun k => if k = make_cache_key "a" "s" "t" then some "v" else none)
          (make_cache_key "a" "s" "t"))
        ((fun _ => (none : Option String)) (make_cache_key "a" "s" "t"))) = true
      ∧ "a" ∉ (translate (fun ts => Except.ok ts) 1 100 10 ["a"] "s" "t"
          (fun k => if k = make_cache_key "a" "s" "t" then some "v" else none)
          (fun _ => none)).requests.flatten :=
  ⟨by simp [optTruthy, pyOrStr],
    cache_hit_prevents_backend_call (fun ts => Except.ok ts) 1 100 10 ["a"]
      "s" "t" _ _ "a" (by simp [optTruthy, pyOrStr])⟩

/-! ## Lemmas: `_get_next_endpoint` -/

lemma foldl_min_achieved (xs : List Nat) :
    ∀ x : Nat, ∃ y ∈ x :: xs, xs.foldl Nat.min x = y := by
  induction xs with
  | nil => intro x; exact ⟨x, List.mem_cons_self _ _, rfl⟩
  | cons z zs ih =>
    intro x
    rw [List.foldl_cons]
    obtain ⟨y, hy, he⟩ := ih (Nat.min x z)
    rcases List.mem_cons.mp hy with h | h
    · subst h
      have h2 : Nat.min x z = x ∨ Nat.min x z = z := by
        show x ⊓ z = x ∨ x ⊓ z = z
        rw [Nat.min_def]
        split_ifs
        · exact Or.inl rfl
        · exact Or.inr rfl
      rcases h2 with h2 | h2
      · exact ⟨x, List.mem_cons_self _ _, by rw [he, h2]⟩
      · exact ⟨z, List.mem_cons_of_mem _ (List.mem_cons_self _ _), by rw [he, h2]⟩
    · exact ⟨y, List.mem_cons_of_mem _ (List.mem_cons_of_mem _ h), he⟩

lemma minFailures_achieved (failures : String → Nat) :
    ∃ ep ∈ googleEndpoints, failures ep = minFailures failures := by
  show ∃ ep ∈ googleEndpoints, failures ep = pyMinNat (googleEndpoints.map failures)
  obtain ⟨y, hy, he⟩ := foldl_min_achieved
    ((googleEndpoints.drop 1).map failures) (failures
      "https://translate.googleapis.com/translate_a/single")
  rcases List.mem_cons.mp hy with h | h
  · subst h
    exact ⟨_, List.mem_cons_self _ _, by rw [← he]; rfl⟩
  · obtain ⟨ep, hep, hfe⟩ := List.mem_map.mp h
    refine ⟨ep, ?_, by rw [hfe, ← he]; rfl⟩
    exact List.mem_cons_of_mem _ hep

/-- C7: `_get_next_endpoint` always returns an endpoint whose failure count
is within 2 (inclusive) of the minimum failure count observed across all
endpoints, for every state of the per-endpoint failure counters and of the
round-robin cursor.  (The `available`-empty reset branch exists in the code
but is unreachable: an endpoint achieving the minimum always qualifies.) -/
theorem endpoint_within_two_of_min (failures : String → Nat)
    (endpointIndex : Nat) :
    failures (getNextEndpoint failures endpointIndex).endpoint
      ≤ minFailures failures + 2
      ∧ availableEndpoints failures ≠ [] := by
  obtain ⟨ep0, hmem, hmin⟩ := minFailures_achieved failures
  have hne : availableEndpoints failures ≠ [] := by
    intro he
    have hm : ep0 ∈ availableEndpoints failures :=
      List.mem_filter.mpr ⟨hmem, decide_eq_true (by omega)⟩
    rw [he] at hm
    exact absurd hm (List.not_mem_nil _)
  refine ⟨?_, hne⟩
  have hempty : (availableEndpoints failures).isEmpty = false :=
    List.isEmpty_eq_false.mpr hne
  have hpos : 0 < (availableEndpoints failures).length :=
    List.length_pos.mpr hne
  have hidx : (endpointIndex + 1) % (availableEndpoints failures).length
      < (availableEndpoints failures).length := Nat.mod_lt _ hpos
  have hchosen : (getNextEndpoint failures endpointIndex).endpoint
      = (availableEndpoints failures).getD
          ((endpointIndex + 1) % (availableEndpoints failures).length) "" := by
    simp only [getNextEndpoint, hempty]
    rfl
  rw [hchosen, List.getD_eq_getElem?_getD, List.getElem?_eq_getElem hidx,
    Option.getD_some]
  have hm := List.getElem_mem hidx
  simp only [availableEndpoints] at hm
  rw [List.mem_filter] at hm
  exact of_decide_eq_true hm.2

/-! ## Lemmas: `_try_batch_separator` -/

lemma raceFirstTruthy_mem (ys : List String) :
    ∀ outs : List (Option (List String)),
      raceFirstTruthy outs = some ys → some ys ∈ outs := by
  intro outs
  induction outs with
  | nil => intro h; exact absurd h (by simp [raceFirstTruthy])
  | cons o rest ih =>
    intro h
    cases o with
    | none => exact List.mem_cons_of_mem _ (ih h)
    | some zs =>
      by_cases hemp : zs.isEmpty
      · rw [show raceFirstTruthy (some zs :: rest) = raceFirstTruthy rest by
          simp [raceFirstTruthy, hemp]] at h
        exact List.mem_cons_of_mem _ (ih h)
      · rw [show raceFirstTruthy (some zs :: rest) = some zs by
          simp [raceFirstTruthy, hemp]] at h
        rw [← h]
        exact List.mem_cons_self _ _

/-- C8: whenever the separator-join path of the racing backend returns a
result (rather than `None`), the result has exactly as many segments as
there were input texts: a reply whose split on the separator yields any
other count is discarded as a failure. -/
theorem batch_separator_count_checked (texts : List String)
    (resps : List (Option (List String))) (ys : List String)
    (h : tryBatchSeparator texts resps = some ys) :
    ys.length = texts.length := by
  have hmem := raceFirstTruthy_mem ys _ h
  obtain ⟨r, hr, hre⟩ := List.mem_map.mp hmem
  cases r with
  | none => exact absurd hre (by simp [tryEndpointSep])
  | some segs =>
    simp only [tryEndpointSep] at hre
    split_ifs at hre with h1 h2
    · injection hre with hre
      rw [← hre, List.length_map]
      omega

/-- C8 witness: a two-text batch whose reply splits into exactly two parts is
accepted, with the output length equal to the input length. -/
theorem batch_separator_count_checked_witness :
    tryBatchSeparator ["ab", "cd"] [some ["AB\n|||RNLSEP999|||\nCD"]]
        = some ["AB", "CD"]
      ∧ (["AB", "CD"] : List String).length = (["ab", "cd"] : List String).length :=
  ⟨by rfl, batch_separator_count_checked ["ab", "cd"]
    [some ["AB\n|||RNLSEP999|||\nCD"]] ["AB", "CD"] (by rfl)⟩

/-! ## `TranslationMemory._load` and `make_cache_key` -/

/-- C9 counterexample: constructing the durable translation memory on a
corrupt store file can both raise and yield a non-empty store.  The one-byte
file `0xff` is not valid UTF-8, so opening it as UTF-8 text raises
`UnicodeDecodeError`, which `except json.JSONDecodeError` does not catch — a
startup failure.  And the file `"[1, 2]"`, corrupt as a store file (not the
flat key→string mapping), is accepted by `json.load`, so `_data` becomes the
list `[1, 2]` — not an empty store. -/
theorem memory_load_corrupt_not_empty :
    loadStore (some [0xff]) = Except.error "UnicodeDecodeError"
      ∧ loadStore (some [91, 49, 44, 32, 50, 93])
          = Except.ok (Json.jarr [Json.jnum "1", Json.jnum "2"])
      ∧ Except.ok (Json.jarr [Json.jnum "1", Json.jnum "2"])
          ≠ (Except.ok (Json.jobj []) : Except String Json) := by
  refine ⟨rfl, rfl, ?_⟩
  intro h
  simp at h

/-- C9 (amended): constructing the durable translation memory on an absent
store file yields an empty in-memory store without raising (the file is
created holding `"{}"`), and for every file whose content is UTF-8 text that
fails JSON parsing, the `JSONDecodeError` is caught and the store behaves as
empty, again without raising.  (A file whose bytes are not valid UTF-8
instead raises `UnicodeDecodeError`, uncaught, and a file holding valid JSON
other than the flat mapping is loaded as that value, not as an empty store —
see the counterexample.) -/
theorem memory_load_empty_on_absent_or_unparsable :
    loadStore none = Except.ok (Json.jobj [])
      ∧ ∀ (bytes : List Nat) (cs : List Char), utf8Decode bytes = some cs →
          parseJson ⟨cs⟩ = none →
          loadStore (some bytes) = Except.ok (Json.jobj []) := by
  constructor
  · rfl
  · intro bytes cs hdec hparse
    simp [loadStore, hdec, loadText, hparse]

/-- C9 witness: the unparsable UTF-8 content `"oops"` loads as the empty
store without an error. -/
theorem memory_load_empty_on_absent_or_unparsable_witness :
    utf8Decode [111, 111, 112, 115] = some "oops".data
      ∧ parseJson "oops" = none
      ∧ loadStore (some [111, 111, 112, 115]) = Except.ok (Json.jobj []) :=
  ⟨rfl, rfl, memory_load_empty_on_absent_or_unparsable.2 [111, 111, 112, 115]
    "oops".data rfl rfl⟩

/-- C10: `make_cache_key` is not injective: the two distinct triples
`("x", "a::b", "c")` and `("c::x", "a", "b")` — the language code of the
first and the text of the second contain the `::` delimiter — produce the
same cache key `"a::b::c::x"`, so two different units of translation work
share one cache entry. -/
theorem make_cache_key_not_injective :
    make_cache_key "x" "a::b" "c" = make_cache_key "c::x" "a" "b"
      ∧ ("x", "a::b", "c") ≠ ("c::x", "a", "b")
      ∧ make_cache_key "x" "a::b" "c" = "a::b::c::x" := by
  refine ⟨by decide, by decide, by decide⟩

end SubLocalizer
